import Mathlib

set_option maxRecDepth 16384

/-!
Shallow embedding of `src/main.rs` (adpwned).

The byte stream of the reference file is a `List Char` (the file is ASCII,
one byte per char); a reader is the stream plus a byte offset.  The two
searchers (`find_hash`, `jump_search`) and the lookup loop of `main` are
modelled as pure functions.  Rust panics (unwrap on a failed seek or parse,
index out of bounds, integer underflow) are explicit error values; loops are
driven by fuel, with a `fuelOut` value marking iteration budgets that the
source could exceed only by diverging; every call site passes a fuel that is
provably sufficient (the loops advance the offset by at least one byte per
iteration, or shrink the binary-search interval).
-/

/-- Whitespace removed by Rust `str::trim` (the ASCII cases that can occur). -/
def isWs (c : Char) : Bool := c == ' ' || c == '\n' || c == '\t' || c == '\r'

/-- Rust `str::trim`: drop whitespace from both ends. -/
def trim (s : List Char) : List Char :=
  ((s.dropWhile isWs).reverse.dropWhile isWs).reverse

/-- Rust `str::split(sep)`: always yields at least one (possibly empty) field. -/
def splitOnChar (sep : Char) : List Char → List (List Char)
  | [] => [[]]
  | c :: rest =>
    match splitOnChar sep rest with
    | [] => [[]]
    | g :: gs => if c = sep then [] :: g :: gs else (c :: g) :: gs

/-- Rust `str::cmp`: byte-lexicographic ordering (code points coincide with bytes on ASCII). -/
def cmpStr : List Char → List Char → Ordering
  | [], [] => .eq
  | [], _ :: _ => .lt
  | _ :: _, [] => .gt
  | a :: s, b :: t => if a < b then .lt else if b < a then .gt else cmpStr s t

/-- ASCII decimal digit test. -/
def isDigit (c : Char) : Bool := '0' ≤ c && c ≤ '9'

/-- Rust `str::parse::<usize>()`: optional leading plus sign, then a nonempty
string of decimal digits whose value fits in 64 bits. -/
def parseUsize (s : List Char) : Option ℕ :=
  let ds := match s with
            | '+' :: rest => rest
            | _ => s
  if ds = [] then none
  else if ds.all isDigit then
    let v := ds.foldl (fun a c => a * 10 + (c.toNat - 48)) 0
    if v < 2 ^ 64 then some v else none
  else none

/-- One `BufRead::read_line` step, reading bytes from `pos` up to and including
the next newline (or to end of stream).  The fuel is the number of bytes still
available, so it never runs out; at or past end of stream zero bytes are read
and the position is unchanged, as in Rust. -/
def readGo (file : List Char) : ℕ → ℕ → List Char × ℕ
  | 0, pos => ([], pos)
  | fuel + 1, pos =>
    match file[pos]? with
    | none => ([], pos)
    | some c =>
      if c = '\n' then ([c], pos + 1)
      else
        let r := readGo file fuel (pos + 1)
        (c :: r.1, r.2)

/-- Rust `reader.read_line(&mut line)` with the reader at byte offset `pos`:
returns the line read (empty at end of stream) and the new offset. -/
def readLineFrom (file : List Char) (pos : ℕ) : List Char × ℕ :=
  readGo file (file.length - pos) pos

/-- The key field of a raw line: `split_line[0]` of `line.trim().split(':')`. -/
def lineKey (l : List Char) : List Char := (splitOnChar ':' (trim l)).headD []

/-- The count field of a raw line: `split_line[1].parse()`, `none` when the
line has no second field or it does not parse (both panic in the source). -/
def lineCount (l : List Char) : Option ℕ := ((splitOnChar ':' (trim l))[1]?).bind parseUsize

/-- Key of the line read at offset `pos`. -/
def keyAt (file : List Char) (pos : ℕ) : List Char := lineKey (readLineFrom file pos).1

/-- Count of the line read at offset `pos` (`none` when malformed). -/
def countAt (file : List Char) (pos : ℕ) : Option ℕ := lineCount (readLineFrom file pos).1

/-- Fueled binary logarithm; fuel 128 is exact for every value below `2 ^ 128`,
far beyond the `u64` stream lengths of the source. -/
def log2Go : ℕ → ℕ → ℕ
  | 0, _ => 0
  | fuel + 1, n => if n ≤ 1 then 0 else log2Go fuel (n / 2) + 1

/-- Binary logarithm (floor), exact below `2 ^ 128`. -/
def log2f (n : ℕ) : ℕ := log2Go 128 n

/-- Fueled bisection for the floor square root, maintaining `lo ^ 2 ≤ n < hi ^ 2`. -/
def isqrtGo (n : ℕ) : ℕ → ℕ → ℕ → ℕ
  | 0, lo, _ => lo
  | fuel + 1, lo, hi =>
    if hi ≤ lo + 1 then lo
    else
      let mid := (lo + hi) / 2
      if mid * mid ≤ n then isqrtGo n fuel mid hi else isqrtGo n fuel lo mid

/-- Floor square root, exact below `2 ^ 128` (see `isqrt_spec`). -/
def isqrt (n : ℕ) : ℕ := isqrtGo n 128 0 (n + 1)

/-- Rust `n as f32` for `n : u64`: round to nearest even onto the single
precision grid (24 bit significand).  Values below `2 ^ 24` are exact. -/
def f32ofNat (n : ℕ) : ℕ :=
  if n < 2 ^ 24 then n
  else
    let sh := log2f n - 23
    let q := n / 2 ^ sh
    let r := n % 2 ^ sh
    let half := 2 ^ (sh - 1)
    let m := if half < r then q + 1 else if r < half then q else if q % 2 = 0 then q else q + 1
    m * 2 ^ sh

/-- Round the (irrational) square root of a natural number to the nearest
integer; for an integer radicand the tie `√w = m + 1/2` is impossible, since
`4 * w` is even and `(2 * m + 1) ^ 2` odd. -/
def sqrtRNE (w : ℕ) : ℕ :=
  let m := isqrt w
  if (2 * m + 1) * (2 * m + 1) < 4 * w then m + 1 else m

/-- Rust `v.sqrt() as u64` for a nonnegative `f32` value `v` (IEEE sqrt is
correctly rounded; `as u64` truncates).  With `4 ^ e ≤ v < 4 ^ (e + 1)` the
representable values around `√v` are the multiples of `2 ^ (e - 23)`, so the
correctly rounded square root is `sqrtRNE (v * 4 ^ (23 - e)) / 2 ^ (23 - e)`
scaled back, truncated to an integer. -/
def f32sqrtTrunc (v : ℕ) : ℕ :=
  if v = 0 then 0
  else
    let e := log2f v / 2
    if e ≤ 23 then
      sqrtRNE (v * 4 ^ (23 - e)) / 2 ^ (23 - e)
    else
      let j := e - 23
      let m0 := isqrt v / 2 ^ j
      let s := (2 * m0 + 1) * (2 * m0 + 1) * 4 ^ j
      let m := if s < 4 * v then m0 + 1
               else if 4 * v < s then m0
               else if m0 % 2 = 0 then m0 else m0 + 1
      m * 2 ^ j

/-- The jump step of `jump_search` (main.rs line 63):
`((n as f32).sqrt() as u64).max(1)` where `n` is the total stream length. -/
def jumpStep (n : ℕ) : ℕ := max 1 (f32sqrtTrunc (f32ofNat n))

/-- Outcome of the jump phase of `jump_search` (the first loop, lines 69-85). -/
inductive JumpPhase where
  | found (v : ℕ) (pos : ℕ)
  | eof (pos : ℕ)
  | broke (stopAt : ℕ)
  | malformed
  | fuelOut
deriving DecidableEq

/-- Fatal outcomes of `jump_search`: `malformed` models the unwrap/index
panics on a line whose key matches but whose count is absent or unparseable;
`negSeek` models the unwrap panic when `seek(SeekFrom::Current(-step))`
targets a negative offset; `fuelOut` marks exhausted fuel (unreachable from
`jump_search`, whose loops advance the offset every iteration). -/
inductive SErr where
  | malformed
  | negSeek
  | fuelOut
deriving DecidableEq

/-- The jump phase (main.rs lines 69-85): read a line at the cursor; stop at
end of stream; on a key match return the count; on overshoot stop the phase;
otherwise seek `step` bytes forward and read through the possibly-partial
line there to realign. -/
def jumpLoop (file hash : List Char) (step : ℕ) : ℕ → ℕ → JumpPhase
  | 0, _ => .fuelOut
  | fuel + 1, pos =>
    let l := (readLineFrom file pos).1
    if l = [] then .eof pos
    else
      match cmpStr (lineKey l) hash with
      | .eq =>
        match lineCount l with
        | none => .malformed
        | some v => .found v (readLineFrom file pos).2
      | .gt => .broke (readLineFrom file pos).2
      | .lt => jumpLoop file hash step fuel (readLineFrom file ((readLineFrom file pos).2 + step)).2

/-- The bounded linear scan of `jump_search` (main.rs lines 92-103): while the
position is below `stopAt`, read a line and compare.  A zero-byte read inside
this loop would spin forever in the source (the empty key compares less); it
cannot occur from `jump_search`, where `stopAt` never exceeds the stream
length, and is modelled by the fuel running out. -/
def linearScan (file hash : List Char) (stopAt : ℕ) : ℕ → ℕ → Except SErr (Option ℕ × ℕ)
  | 0, _ => .error .fuelOut
  | fuel + 1, pos =>
    if stopAt ≤ pos then .ok (none, pos)
    else
      let l := (readLineFrom file pos).1
      match cmpStr (lineKey l) hash with
      | .eq =>
        match lineCount l with
        | none => .error .malformed
        | some v => .ok (some v, (readLineFrom file pos).2)
      | .gt => .ok (none, (readLineFrom file pos).2)
      | .lt => linearScan file hash stopAt fuel (readLineFrom file pos).2

/-- `jump_search` (main.rs lines 60-106) on a reader positioned at `pos`:
returns the optional count plus the reader's final position, or the fatal
outcome.  The step is computed from the total stream length; after the jump
phase stops at `stop_at`, the source seeks `step` bytes back (a panic when
that is negative), reads through the possibly-partial line there, and scans
linearly up to `stop_at`. -/
def jump_search (file : List Char) (pos : ℕ) (hash : List Char) : Except SErr (Option ℕ × ℕ) :=
  let n := file.length
  let step := jumpStep n
  match jumpLoop file hash step (n + 2) pos with
  | .found v p => .ok (some v, p)
  | .eof p => .ok (none, p)
  | .malformed => .error .malformed
  | .fuelOut => .error .fuelOut
  | .broke stopAt =>
    if stopAt < step then .error .negSeek
    else linearScan file hash stopAt (n + 2) (readLineFrom file (stopAt - step)).2

/-- Fatal outcomes of `find_hash`: `underflow` models the `u64` underflow of
`right = mid - 1` at `mid = 0` (a panic in debug builds); `malformed` the
unwrap/index panics on parsing; `fuelOut` marks exhausted fuel (the interval
shrinks every iteration, so the fuel passed by `find_hash` suffices). -/
inductive FErr where
  | underflow
  | malformed
  | fuelOut
deriving DecidableEq

/-- The loop of `find_hash` (main.rs lines 38-52), instrumented with the list
of byte offsets at which the compared lines start: each probe seeks to `mid`,
reads and discards one (possibly partial) line, then reads and compares the
following line. -/
def findHashLoopT (file target : List Char) : ℕ → ℕ → ℕ → Except FErr (Option ℕ) × List ℕ
  | 0, _, _ => (.error .fuelOut, [])
  | fuel + 1, left, right =>
    if left ≤ right then
      let mid := left + (right - left) / 2
      let p1 := (readLineFrom file mid).2
      let l := (readLineFrom file p1).1
      match cmpStr (lineKey l) target with
      | .eq =>
        match lineCount l with
        | none => (.error .malformed, [p1])
        | some v => (.ok (some v), [p1])
      | .lt =>
        let r := findHashLoopT file target fuel (mid + 1) right
        (r.1, p1 :: r.2)
      | .gt =>
        if mid = 0 then (.error .underflow, [p1])
        else
          let r := findHashLoopT file target fuel left (mid - 1)
          (r.1, p1 :: r.2)
    else (.ok none, [])

/-- `find_hash` (main.rs lines 31-55): binary search by byte offset, with
`left = 0` and `right` the total stream length. -/
def find_hash (file target : List Char) : Except FErr (Option ℕ) :=
  (findHashLoopT file target (file.length + 2) 0 file.length).1

/-- The start offsets of the lines `find_hash` compares against the target. -/
def findHashTrace (file target : List Char) : List ℕ :=
  (findHashLoopT file target (file.length + 2) 0 file.length).2

/-- An account row as in the source (`User`): rid, username, password hash
(already uppercased by the loader), userAccountControl flags. -/
structure User where
  rid : ℕ
  username : List Char
  password : List Char
  uac : ℕ
deriving DecidableEq

/-- State threaded through the lookup loop of `main` (lines 142-155): the
reader position and the single-slot dedup cache `last_hash` / `last_pwned`. -/
structure PipeState where
  pos : ℕ
  lastHash : List Char
  lastPwned : ℕ
deriving DecidableEq

/-- The lookup loop of `main` (lines 145-158), a `filter_map` over the sorted
users: a user whose password equals `last_hash` is re-emitted with the cached
`last_pwned` without touching the reader; otherwise `last_hash` is updated
and `jump_search` runs — on `None` the `?` operator drops the user from the
output (and `last_pwned` keeps its old value), on `Some` the user is emitted.
The result is the emitted `(user, count)` list plus the panic, if one
occurred, that cut the run short. -/
def pipelineGo (file : List Char) : List User → PipeState → List (User × ℕ) × Option SErr
  | [], _ => ([], none)
  | u :: rest, st =>
    if u.password = st.lastHash then
      let r := pipelineGo file rest st
      ((u, st.lastPwned) :: r.1, r.2)
    else
      match jump_search file st.pos u.password with
      | .error e => ([], some e)
      | .ok (none, p) =>
        pipelineGo file rest ⟨p, u.password, st.lastPwned⟩
      | .ok (some c, p) =>
        let r := pipelineGo file rest ⟨p, u.password, c⟩
        ((u, c) :: r.1, r.2)

/-- The whole lookup pipeline: reader at offset 0, empty `last_hash`,
`last_pwned = 0`, as initialized in `main` (lines 133, 142-143). -/
def pipeline (file : List Char) (users : List User) : List (User × ℕ) × Option SErr :=
  pipelineGo file users ⟨0, [], 0⟩

/-- Lines of the file, splitting on newline; a trailing newline does not
produce an extra empty entry.  Spec-side notion (§3 ReferenceEntry). -/
def fileLines (file : List Char) : List (List Char) :=
  let ls := splitOnChar '\n' file
  if ls.getLast? = some [] then ls.dropLast else ls

/-- Modelled from the spec: the independent correct search of §8 — scan the
whole reference file for the entry whose key equals the hash and return its
count. -/
def specLookup (file hash : List Char) : Option ℕ :=
  (fileLines file).findSome? (fun l => if lineKey l = hash then lineCount l else none)

/-- Strictly ascending key list (the file-wide sort invariant of §3). -/
def ascKeys : List (List Char) → Bool
  | [] => true
  | [_] => true
  | a :: b :: rest =>
    match cmpStr a b with
    | .lt => ascKeys (b :: rest)
    | _ => false

/-- Offset `p` is a line boundary of the file: the start, past the end, or
just after a newline.  Every reader position reachable by the pipeline's
searches is a boundary in this sense. -/
def Bd (file : List Char) (p : ℕ) : Prop :=
  p = 0 ∨ file.length ≤ p ∨ file[p - 1]? = some '\n'

instance (file : List Char) (p : ℕ) : Decidable (Bd file p) := by
  unfold Bd; exact inferInstance

/-! Concrete inputs used by the counterexamples, failing-input evaluations
and witnesses below. -/

/-- A sorted, well-formed reference file of nine 5-byte entries (n = 45, so
the jump step is 6). -/
def exFileA : List Char := "A0:1\nB0:1\nC0:1\nD0:1\nE0:1\nF0:1\nG0:1\nH0:1\nI0:1\n".toList

/-- A one-entry reference file. -/
def exFileAA : List Char := "AA:1\n".toList

/-- A sorted, well-formed reference file of eight 5-byte entries (n = 40, so
the jump step is 6, one more than the length of the first line). -/
def exFileEE : List Char := "EE:1\nFF:1\nGG:1\nHH:1\nII:1\nJJ:1\nKK:1\nLL:1\n".toList

/-- A sorted, well-formed reference file of 52 5-byte entries (n = 260, so
the jump step is 16). -/
def exFileBC : List Char := ("BA:1\nBB:1\nBC:1\nBD:1\nBE:1\nBF:1\nBG:1\nBH:1\nBI:1\nBJ:1\n" ++
  "BK:1\nBL:1\nBM:1\nBN:1\nBO:1\nBP:1\nBQ:1\nBR:1\nBS:1\nBT:1\n" ++
  "BU:1\nBV:1\nBW:1\nBX:1\nBY:1\nBZ:1\nCA:1\nCB:1\nCC:1\nCD:1\n" ++
  "CE:1\nCF:1\nCG:1\nCH:1\nCI:1\nCJ:1\nCK:1\nCL:1\nCM:1\nCN:1\n" ++
  "CO:1\nCP:1\nCQ:1\nCR:1\nCS:1\nCT:1\nCU:1\nCV:1\nCW:1\nCX:1\n" ++
  "CY:1\nCZ:1\n").toList

/-- A file whose only line has a key but an unparseable count. -/
def exFileBad : List Char := "AA:x\n".toList

/-- A file whose only line has no colon at all. -/
def exFileNoColon : List Char := "AB\n".toList

/-- A sorted two-line file whose first line is long (needed to reach the
`mid = 0` probe of `find_hash` on the greater branch). -/
def exFileLong : List Char := "AAAAAAAA:1\nB:2\n".toList

/-- A sorted two-entry reference file. -/
def exFileTwo : List Char := "A:1\nB:2\n".toList

/-- An account whose password hash is the second entry of `exFileA`. -/
def userB0 : User := ⟨1000, "u0".toList, "B0".toList, 0⟩

/-- An account whose password hash is the only entry of `exFileAA`. -/
def userAA : User := ⟨1001, "u1".toList, "AA".toList, 0⟩

/-- Two distinct accounts sharing a password hash that is in no reference file. -/
def userZZ1 : User := ⟨1002, "u2".toList, "ZZ".toList, 0⟩

/-- Second account with the same absent password hash as `userZZ1`. -/
def userZZ2 : User := ⟨1003, "u3".toList, "ZZ".toList, 0⟩

/-- Modelled from the spec (§4.4): the same lookup loop, but recording one
entry per input element — `some (user, count)` when the source emits the
pair, `none` when the search returned `NotFound` and the `?` operator
dropped the element.  Used to state what the source pipeline actually
produces: the `filterMap` of this per-element sequence. -/
def pipelineOpt (file : List Char) : List User → PipeState → List (Option (User × ℕ)) × Option SErr
  | [], _ => ([], none)
  | u :: rest, st =>
    if u.password = st.lastHash then
      let r := pipelineOpt file rest st
      (some (u, st.lastPwned) :: r.1, r.2)
    else
      match jump_search file st.pos u.password with
      | .error e => ([], some e)
      | .ok (none, p) =>
        let r := pipelineOpt file rest ⟨p, u.password, st.lastPwned⟩
        (none :: r.1, r.2)
      | .ok (some c, p) =>
        let r := pipelineOpt file rest ⟨p, u.password, c⟩
        (some (u, c) :: r.1, r.2)

/-- The per-element pipeline from the initial state. -/
def pipelineOptRun (file : List Char) (users : List User) : List (Option (User × ℕ)) × Option SErr :=
  pipelineOpt file users ⟨0, [], 0⟩

/-! Basic facts about the reader: reads never move backwards, stay within
the stream, read zero bytes exactly at or past end of stream, and leave the
position at a line boundary. -/

theorem readGo_pos_le (file : List Char) : ∀ fuel pos, pos ≤ (readGo file fuel pos).2 := by
  intro fuel
  induction fuel with
  | zero => intro pos; simp [readGo]
  | succ k ih =>
    intro pos
    simp only [readGo]
    cases hx : file[pos]? with
    | none => simp
    | some c =>
      by_cases hc : c = '\n'
      · simp [hc]
      · simpa [hc] using Nat.le_trans (Nat.le_succ pos) (ih (pos + 1))

theorem readGo_le (file : List Char) : ∀ fuel pos, (readGo file fuel pos).2 ≤ pos + fuel := by
  intro fuel
  induction fuel with
  | zero => intro pos; simp [readGo]
  | succ k ih =>
    intro pos
    simp only [readGo]
    cases hx : file[pos]? with
    | none => simp
    | some c =>
      by_cases hc : c = '\n'
      · simp [hc]
      · have := ih (pos + 1)
        simp only [hc, ite_false]
        omega

theorem readGo_fst_ne (file : List Char) :
    ∀ fuel pos, (readGo file fuel pos).1 ≠ [] →
      pos < file.length ∧ pos + 1 ≤ (readGo file fuel pos).2 := by
  intro fuel
  induction fuel with
  | zero => intro pos h; simp [readGo] at h
  | succ k ih =>
    intro pos h
    simp only [readGo] at h ⊢
    cases hx : file[pos]? with
    | none => rw [hx] at h; simp at h
    | some c =>
      have hlen : pos < file.length := (List.getElem?_eq_some_iff.mp hx).1
      by_cases hc : c = '\n'
      · simpa [hc] using hlen
      · refine ⟨hlen, ?_⟩
        simp only [hc, ite_false]
        have := readGo_pos_le file k (pos + 1)
        omega

theorem readGo_bd (file : List Char) :
    ∀ fuel pos, file.length ≤ fuel + pos → Bd file (readGo file fuel pos).2 := by
  intro fuel
  induction fuel with
  | zero =>
    intro pos h
    simp only [readGo]
    exact Or.inr (Or.inl (by omega))
  | succ k ih =>
    intro pos h
    simp only [readGo]
    cases hx : file[pos]? with
    | none =>
      have hlen : file.length ≤ pos := by
        by_contra hlt
        rw [List.getElem?_eq_none_iff] at hx
        omega
      exact Or.inr (Or.inl hlen)
    | some c =>
      by_cases hc : c = '\n'
      · rw [hc] at hx
        simp only [hc, ite_true]
        refine Or.inr (Or.inr ?_)
        simpa using hx
      · simp only [hc, ite_false]
        exact ih (pos + 1) (by omega)

theorem readLineFrom_pos_le (file : List Char) (pos : ℕ) : pos ≤ (readLineFrom file pos).2 :=
  readGo_pos_le file _ pos

theorem readLineFrom_bd (file : List Char) (pos : ℕ) : Bd file (readLineFrom file pos).2 := by
  by_cases h : pos ≤ file.length
  · exact readGo_bd file _ pos (by omega)
  · unfold readLineFrom
    have h0 : file.length - pos = 0 := by omega
    rw [h0]
    simp only [readGo]
    exact Or.inr (Or.inl (by omega))

theorem readLineFrom_fst_ne (file : List Char) (pos : ℕ) (h : (readLineFrom file pos).1 ≠ []) :
    pos < file.length ∧ pos + 1 ≤ (readLineFrom file pos).2 :=
  readGo_fst_ne file _ pos h

theorem readLineFrom_le_length (file : List Char) (pos : ℕ) (h : pos ≤ file.length) :
    (readLineFrom file pos).2 ≤ file.length := by
  have := readGo_le file (file.length - pos) pos
  unfold readLineFrom
  omega

theorem readLineFrom_eq_nil (file : List Char) (pos : ℕ) :
    (readLineFrom file pos).1 = [] ↔ file.length ≤ pos := by
  constructor
  · intro h
    by_contra hlt
    have hpos : pos < file.length := by omega
    have hne : (readLineFrom file pos).1 ≠ [] := by
      unfold readLineFrom
      obtain ⟨k, hk⟩ : ∃ k, file.length - pos = k + 1 := ⟨file.length - pos - 1, by omega⟩
      rw [hk]
      simp only [readGo]
      cases hx : file[pos]? with
      | none => rw [List.getElem?_eq_none_iff] at hx; omega
      | some c =>
        by_cases hc : c = '\n' <;> simp [hc]
    exact hne h
  · intro h
    unfold readLineFrom
    have h0 : file.length - pos = 0 := by omega
    rw [h0]
    simp [readGo]

/-! Byte-ordinal comparison reflects equality. -/

theorem cmpStr_eq_iff : ∀ s t : List Char, cmpStr s t = .eq ↔ s = t := by
  intro s
  induction s with
  | nil => intro t; cases t <;> simp [cmpStr]
  | cons a s ih =>
    intro t
    cases t with
    | nil => simp [cmpStr]
    | cons b t =>
      simp only [cmpStr]
      by_cases hab : a < b
      · simp only [if_pos hab]
        constructor
        · intro h; exact absurd h (by decide)
        · intro h
          injection h with h1 _
          exact absurd hab (by rw [h1]; exact lt_irrefl b)
      · by_cases hba : b < a
        · simp only [if_neg hab, if_pos hba]
          constructor
          · intro h; exact absurd h (by decide)
          · intro h
            injection h with h1 _
            exact absurd hba (by rw [h1]; exact lt_irrefl b)
        · have heq : a = b := le_antisymm (not_lt.mp hba) (not_lt.mp hab)
          simp [if_neg hab, if_neg hba, heq, ih]

/-! Positions reported by the jump phase: the cursor never moves backwards
during it, and the offset where the phase stops lies inside the stream. -/

theorem jumpLoop_pos (file hash : List Char) (step : ℕ) :
    ∀ fuel pos,
      (∀ v p, jumpLoop file hash step fuel pos = .found v p → pos ≤ p) ∧
      (∀ p, jumpLoop file hash step fuel pos = .eof p → pos ≤ p) ∧
      (∀ s, jumpLoop file hash step fuel pos = .broke s → pos + 1 ≤ s ∧ s ≤ file.length) := by
  intro fuel
  induction fuel with
  | zero =>
    intro pos
    refine ⟨?_, ?_, ?_⟩
    · intro v p h; simp [jumpLoop] at h
    · intro p h; simp [jumpLoop] at h
    · intro s h; simp [jumpLoop] at h
  | succ k ih =>
    intro pos
    by_cases hl : (readLineFrom file pos).1 = []
    · refine ⟨?_, ?_, ?_⟩
      · intro v p h
        simp only [jumpLoop, if_pos hl] at h
        exact absurd h (by simp)
      · intro p h
        simp only [jumpLoop, if_pos hl] at h
        injection h with h1
        omega
      · intro s h
        simp only [jumpLoop, if_pos hl] at h
        exact absurd h (by simp)
    · have hfe := readLineFrom_fst_ne file pos hl
      cases hc : cmpStr (lineKey (readLineFrom file pos).1) hash with
      | eq =>
        refine ⟨?_, ?_, ?_⟩
        · intro v p h
          simp only [jumpLoop, if_neg hl, hc] at h
          cases hcnt : lineCount (readLineFrom file pos).1 <;> rw [hcnt] at h
          · exact absurd h (by simp)
          · injection h with _ h2
            have := readLineFrom_pos_le file pos
            omega
        · intro p h
          simp only [jumpLoop, if_neg hl, hc] at h
          cases hcnt : lineCount (readLineFrom file pos).1 <;> rw [hcnt] at h
          · exact absurd h (by simp)
          · exact absurd h (by simp)
        · intro s h
          simp only [jumpLoop, if_neg hl, hc] at h
          cases hcnt : lineCount (readLineFrom file pos).1 <;> rw [hcnt] at h
          · exact absurd h (by simp)
          · exact absurd h (by simp)
      | gt =>
        refine ⟨?_, ?_, ?_⟩
        · intro v p h
          simp only [jumpLoop, if_neg hl, hc] at h
          exact absurd h (by simp)
        · intro p h
          simp only [jumpLoop, if_neg hl, hc] at h
          exact absurd h (by simp)
        · intro s h
          simp only [jumpLoop, if_neg hl, hc] at h
          injection h with h1
          rw [← h1]
          exact ⟨hfe.2, readLineFrom_le_length file pos (by omega)⟩
      | lt =>
        have hp1 := readLineFrom_pos_le file pos
        have hp2 := readLineFrom_pos_le file ((readLineFrom file pos).2 + step)
        have hrec := ih ((readLineFrom file ((readLineFrom file pos).2 + step)).2)
        refine ⟨?_, ?_, ?_⟩
        · intro v p h
          simp only [jumpLoop, if_neg hl, hc] at h
          have := hrec.1 v p h
          omega
        · intro p h
          simp only [jumpLoop, if_neg hl, hc] at h
          have := hrec.2.1 p h
          omega
        · intro s h
          simp only [jumpLoop, if_neg hl, hc] at h
          have := hrec.2.2 s h
          omega

/-! Positions reported by the linear scan never precede its start. -/

theorem linearScan_ok_le (file hash : List Char) (stopAt : ℕ) :
    ∀ fuel pos r p, linearScan file hash stopAt fuel pos = .ok (r, p) → pos ≤ p := by
  intro fuel
  induction fuel with
  | zero => intro pos r p h; simp [linearScan] at h
  | succ k ih =>
    intro pos r p h
    simp only [linearScan] at h
    by_cases hstop : stopAt ≤ pos
    · rw [if_pos hstop] at h
      injection h with h1
      injection h1 with _ h2
      omega
    · rw [if_neg hstop] at h
      have hple := readLineFrom_pos_le file pos
      cases hc : cmpStr (lineKey (readLineFrom file pos).1) hash with
      | eq =>
        rw [hc] at h
        cases hcnt : lineCount (readLineFrom file pos).1 <;> rw [hcnt] at h
        · exact absurd h (by simp)
        · injection h with h1
          injection h1 with _ h2
          omega
      | gt =>
        rw [hc] at h
        injection h with h1
        injection h1 with _ h2
        omega
      | lt =>
        rw [hc] at h
        have := ih ((readLineFrom file pos).2) r p h
        omega

/-! A fatal parse in either phase names a stream offset whose line's key
equals the target and whose count is missing or unparseable. -/

theorem jumpLoop_malformed (file hash : List Char) (step : ℕ) :
    ∀ fuel pos, jumpLoop file hash step fuel pos = .malformed →
      ∃ q, keyAt file q = hash ∧ countAt file q = none := by
  intro fuel
  induction fuel with
  | zero => intro pos h; simp [jumpLoop] at h
  | succ k ih =>
    intro pos h
    by_cases hl : (readLineFrom file pos).1 = []
    · simp only [jumpLoop, if_pos hl] at h
      exact absurd h (by simp)
    · cases hc : cmpStr (lineKey (readLineFrom file pos).1) hash with
      | eq =>
        simp only [jumpLoop, if_neg hl, hc] at h
        cases hcnt : lineCount (readLineFrom file pos).1 <;> rw [hcnt] at h
        · exact ⟨pos, (cmpStr_eq_iff _ _).mp hc, hcnt⟩
        · exact absurd h (by simp)
      | gt =>
        simp only [jumpLoop, if_neg hl, hc] at h
        exact absurd h (by simp)
      | lt =>
        simp only [jumpLoop, if_neg hl, hc] at h
        exact ih _ h

theorem linearScan_malformed (file hash : List Char) (stopAt : ℕ) :
    ∀ fuel pos, linearScan file hash stopAt fuel pos = .error .malformed →
      ∃ q, keyAt file q = hash ∧ countAt file q = none := by
  intro fuel
  induction fuel with
  | zero => intro pos h; simp [linearScan] at h
  | succ k ih =>
    intro pos h
    by_cases hstop : stopAt ≤ pos
    · simp only [linearScan, if_pos hstop] at h
      exact absurd h (by simp)
    · cases hc : cmpStr (lineKey (readLineFrom file pos).1) hash with
      | eq =>
        simp only [linearScan, if_neg hstop, hc] at h
        cases hcnt : lineCount (readLineFrom file pos).1 <;> rw [hcnt] at h
        · exact ⟨pos, (cmpStr_eq_iff _ _).mp hc, hcnt⟩
        · exact absurd h (by simp)
      | gt =>
        simp only [linearScan, if_neg hstop, hc] at h
        exact absurd h (by simp)
      | lt =>
        simp only [linearScan, if_neg hstop, hc] at h
        exact ih _ h

/-! A run of the jump phase over keys that all compare less than the target
reaches end of stream, provided the cursor starts at a line boundary: every
probe lands on a line boundary at or after the start. -/

theorem jumpLoop_all_lt_eof (file hash : List Char) (step : ℕ) (hstep : 1 ≤ step) (pos0 : ℕ)
    (hlt : ∀ p, p < file.length → pos0 ≤ p → Bd file p → cmpStr (keyAt file p) hash = .lt) :
    ∀ fuel pos, 1 ≤ fuel → file.length + 1 ≤ fuel + pos → pos0 ≤ pos → Bd file pos →
      ∃ q, jumpLoop file hash step fuel pos = .eof q := by
  intro fuel
  induction fuel with
  | zero => intro pos h1 _ _ _; omega
  | succ k ih =>
    intro pos _ hfuel hpos0 hbd
    by_cases hl : (readLineFrom file pos).1 = []
    · exact ⟨pos, by simp only [jumpLoop, if_pos hl]⟩
    · have hfe := readLineFrom_fst_ne file pos hl
      have hc : cmpStr (lineKey (readLineFrom file pos).1) hash = .lt :=
        hlt pos hfe.1 hpos0 hbd
      have hnext := readLineFrom_pos_le file ((readLineFrom file pos).2 + step)
      have hbd2 := readLineFrom_bd file ((readLineFrom file pos).2 + step)
      obtain ⟨q, hq⟩ := ih ((readLineFrom file ((readLineFrom file pos).2 + step)).2)
        (by omega) (by omega) (by omega) hbd2
      exact ⟨q, by simp only [jumpLoop, if_neg hl, hc]; exact hq⟩

/-! Bisection computes the floor square root when given enough fuel. -/

theorem isqrtGo_spec (n : ℕ) :
    ∀ fuel lo hi, lo * lo ≤ n → n < hi * hi → hi ≤ lo + 2 ^ fuel →
      isqrtGo n fuel lo hi * isqrtGo n fuel lo hi ≤ n ∧
        n < (isqrtGo n fuel lo hi + 1) * (isqrtGo n fuel lo hi + 1) := by
  intro fuel
  induction fuel with
  | zero =>
    intro lo hi hlo hhi hle
    have hgt : lo < hi := by
      by_contra hxx
      push_neg at hxx
      have := Nat.mul_le_mul hxx hxx
      omega
    have h20 : (2 : ℕ) ^ 0 = 1 := rfl
    have heq : hi = lo + 1 := by omega
    simp only [isqrtGo]
    exact ⟨hlo, heq ▸ hhi⟩
  | succ k ih =>
    intro lo hi hlo hhi hle
    by_cases hsm : hi ≤ lo + 1
    · have hgt : lo < hi := by
        by_contra hxx
        push_neg at hxx
        have := Nat.mul_le_mul hxx hxx
        omega
      have heq : hi = lo + 1 := by omega
      simp only [isqrtGo, if_pos hsm]
      exact ⟨hlo, heq ▸ hhi⟩
    · have hmid := Nat.div_add_mod (lo + hi) 2
      have hmod : (lo + hi) % 2 < 2 := Nat.mod_lt _ (by omega)
      have h2k : (2 : ℕ) ^ (k + 1) = 2 ^ k + 2 ^ k := by rw [pow_succ]; omega
      by_cases hq : ((lo + hi) / 2) * ((lo + hi) / 2) ≤ n
      · have := ih ((lo + hi) / 2) hi hq hhi (by omega)
        simpa only [isqrtGo, if_neg hsm, if_pos hq] using this
      · have := ih lo ((lo + hi) / 2) hlo (by omega) (by omega)
        simpa only [isqrtGo, if_neg hsm, if_neg hq] using this

/-- The fueled bisection is the floor square root for every value below
`2 ^ 128`, which covers every `u64` stream length of the source. -/
theorem isqrt_spec (n : ℕ) (h : n < 2 ^ 128) :
    isqrt n * isqrt n ≤ n ∧ n < (isqrt n + 1) * (isqrt n + 1) :=
  isqrtGo_spec n 128 0 (n + 1) (by omega) (by nlinarith) (by omega)

/-! The source pipeline is the `filterMap` of the per-element pipeline, which
by construction yields one entry per input element. -/

theorem pipelineGo_eq_filterMap (file : List Char) :
    ∀ users st, pipelineGo file users st =
      ((pipelineOpt file users st).1.filterMap id, (pipelineOpt file users st).2) := by
  intro users
  induction users with
  | nil => intro st; simp [pipelineGo, pipelineOpt]
  | cons u rest ih =>
    intro st
    by_cases hcache : u.password = st.lastHash
    · simp [pipelineGo, pipelineOpt, if_pos hcache, ih st]
    · cases hjs : jump_search file st.pos u.password with
      | error e => simp [pipelineGo, pipelineOpt, if_neg hcache, hjs]
      | ok rp =>
        cases rp with
        | mk r p =>
          cases r with
          | none => simp [pipelineGo, pipelineOpt, if_neg hcache, hjs, ih]
          | some c => simp [pipelineGo, pipelineOpt, if_neg hcache, hjs, ih]

theorem pipelineOpt_length (file : List Char) :
    ∀ users st, (pipelineOpt file users st).2 = none →
      (pipelineOpt file users st).1.length = users.length := by
  intro users
  induction users with
  | nil => intro st _; simp [pipelineOpt]
  | cons u rest ih =>
    intro st h
    by_cases hcache : u.password = st.lastHash
    · simp only [pipelineOpt, if_pos hcache] at h ⊢
      simp [ih st h]
    · cases hjs : jump_search file st.pos u.password with
      | error e =>
        simp only [pipelineOpt, if_neg hcache, hjs] at h
        exact absurd h (by simp)
      | ok rp =>
        cases rp with
        | mk r p =>
          cases r with
          | none =>
            simp only [pipelineOpt, if_neg hcache, hjs] at h ⊢
            simp [ih _ h]
          | some c =>
            simp only [pipelineOpt, if_neg hcache, hjs] at h ⊢
            simp [ih _ h]

/-! Every line `find_hash` compares starts at a positive offset: each probe
discards the bytes from `mid` to the end of the line containing `mid` and
compares only the line that starts there. -/

theorem findHashLoopT_trace_pos (file target : List Char) (hne : file ≠ []) :
    ∀ fuel left right q, q ∈ (findHashLoopT file target fuel left right).2 → 0 < q := by
  intro fuel
  induction fuel with
  | zero => intro left right q hq; simp [findHashLoopT] at hq
  | succ k ih =>
    intro left right q hq
    by_cases hlr : left ≤ right
    · have hp1 : 0 < (readLineFrom file (left + (right - left) / 2)).2 := by
        rcases Nat.eq_zero_or_pos (left + (right - left) / 2) with hm | hm
        · rw [hm]
          have hlen : 0 < file.length := List.length_pos.mpr hne
          have hner : (readLineFrom file 0).1 ≠ [] := by
            rw [ne_eq, readLineFrom_eq_nil]; omega
          have := (readLineFrom_fst_ne file 0 hner).2
          omega
        · have := readLineFrom_pos_le file (left + (right - left) / 2)
          omega
      simp only [findHashLoopT, if_pos hlr] at hq
      cases hc : cmpStr
          (lineKey (readLineFrom file (readLineFrom file (left + (right - left) / 2)).2).1)
          target with
      | eq =>
        rw [hc] at hq
        cases hcnt : lineCount
            (readLineFrom file (readLineFrom file (left + (right - left) / 2)).2).1 <;>
          rw [hcnt] at hq <;> simp at hq <;> omega
      | lt =>
        rw [hc] at hq
        rcases List.mem_cons.mp hq with hq | hq
        · omega
        · exact ih _ _ q hq
      | gt =>
        rw [hc] at hq
        by_cases hm0 : left + (right - left) / 2 = 0
        · rw [if_pos hm0] at hq
          simp at hq
          omega
        · rw [if_neg hm0] at hq
          rcases List.mem_cons.mp hq with hq | hq
          · omega
          · exact ih _ _ q hq
    · simp [findHashLoopT, if_neg hlr] at hq

/-! Claim theorems. -/

/-- C1 (code_bug): the pipeline does not match an independent correct search.
On the sorted well-formed file `exFileA` the entry `B0:1` is present (the
independent search of the spec finds count 1), yet the pipeline queried with
the single hash `B0` emits nothing: the jump phase overshoots to `D0`
(`stop_at = 20`), the backtrack seeks only one step (6 bytes) back and
realigns past the lines `B0` and `C0`, which are never compared. -/
theorem C1_pipeline_misses_present_entry :
    ascKeys ((fileLines exFileA).map lineKey) = true ∧
      specLookup exFileA ("B0".toList) = some 1 ∧
      pipeline exFileA [userB0] = ([], none) := ⟨rfl, rfl, rfl⟩

/-- C2 (code_bug): a query whose hash equals the immediately preceding
query's hash does not return the preceding result when that result was
`NotFound`.  The hash `ZZ` is in no entry of `exFileAA`, so the search for
`userZZ1` returns `NotFound` and emits nothing, but the duplicate `userZZ2`
hits the single-slot cache and is emitted with the stale count 1 left over
from `userAA` — a `Found(1)` instead of the preceding `NotFound`. -/
theorem C2_duplicate_after_notfound_gets_stale_count :
    specLookup exFileAA ("ZZ".toList) = none ∧
      pipeline exFileAA [userAA, userZZ1, userZZ2] = ([(userAA, 1), (userZZ2, 1)], none) :=
  ⟨rfl, rfl⟩

/-- C3 (code_bug): searching for a hash strictly less than every entry at or
after the cursor does not always return `NotFound` normally.  On the sorted
well-formed file `exFileEE` (n = 40, step 6) the query `AA` is below every
key, the first probe compares greater, `stop_at = 5 < step = 6`, and
`seek(SeekFrom::Current(-6))` targets byte −1: the io error makes the
`unwrap` panic, modelled as `.error .negSeek`. -/
theorem C3_small_hash_negative_seek_panic :
    ascKeys ((fileLines exFileEE).map lineKey) = true ∧
      jump_search exFileEE 0 ("AA".toList) = .error .negSeek := ⟨rfl, rfl⟩

/-- C4 counterexample: a searcher call whose stream position at return (10)
is strictly smaller than the position at entry (15): on `exFileBC` the query
`AA` compares greater at the first probe, the backtrack seeks 16 bytes back
from `stop_at = 20`, and the scan stops at the line ending at byte 10. -/
theorem C4_returns_before_entry :
    jump_search exFileBC 15 ("AA".toList) = .ok (none, 10) ∧ 10 < 15 := ⟨rfl, by omega⟩

/-- C4 (amended): a `jump_search` call that returns normally leaves the
stream position at most one jump step before the position at entry — the
bounded backtrack of one step is the only way the reader moves backwards,
so `entry ≤ final + step` always holds. -/
theorem C4_return_position_bounded (file : List Char) (pos : ℕ) (hash : List Char)
    (r : Option ℕ) (p : ℕ) (h : jump_search file pos hash = .ok (r, p)) :
    pos ≤ p + jumpStep file.length := by
  simp only [jump_search] at h
  cases hjl : jumpLoop file hash (jumpStep file.length) (file.length + 2) pos <;>
    simp only [hjl] at h
  case found v q =>
    simp only [Except.ok.injEq, Prod.mk.injEq] at h
    have := (jumpLoop_pos file hash (jumpStep file.length) (file.length + 2) pos).1 v q hjl
    omega
  case eof q =>
    simp only [Except.ok.injEq, Prod.mk.injEq] at h
    have := (jumpLoop_pos file hash (jumpStep file.length) (file.length + 2) pos).2.1 q hjl
    omega
  case malformed => simp at h
  case fuelOut => simp at h
  case broke s =>
    have hb := (jumpLoop_pos file hash (jumpStep file.length) (file.length + 2) pos).2.2 s hjl
    by_cases hs : s < jumpStep file.length
    · rw [if_pos hs] at h
      simp at h
    · rw [if_neg hs] at h
      have hstart := readLineFrom_pos_le file (s - jumpStep file.length)
      have hle := linearScan_ok_le file hash s (file.length + 2) _ r p h
      omega

/-- C4 witness: a successful call at entry position 0 returning at 5
satisfies the bound `0 ≤ 5 + step`. -/
theorem C4_return_position_bounded_witness :
    jump_search exFileAA 0 ("AA".toList) = .ok (some 1, 5) ∧ 0 ≤ 5 + jumpStep exFileAA.length :=
  ⟨rfl, C4_return_position_bounded exFileAA 0 ("AA".toList) (some 1) 5 rfl⟩

/-- C5 counterexample: one input element, zero output pairs — the single
query `ZZ` is not in `exFileAA`, its search returns `NotFound`, and the `?`
operator makes `filter_map` skip the element entirely. -/
theorem C5_notfound_element_skipped :
    pipeline exFileAA [userZZ1] = ([], none) ∧
      (pipeline exFileAA [userZZ1]).1.length ≠ [userZZ1].length := ⟨rfl, by decide⟩

/-- C5 (amended): the pipeline's output is the `filterMap` of a per-element
sequence with exactly one entry per input element, in input order: `some`
(an emitted pair) for cache hits and found queries, `none` for elements
whose search returned `NotFound` — those are skipped, yielding no pair. -/
theorem C5_pipeline_emits_filtered (file : List Char) (users : List User) :
    pipeline file users =
      ((pipelineOptRun file users).1.filterMap id, (pipelineOptRun file users).2) ∧
    ((pipelineOptRun file users).2 = none →
      (pipelineOptRun file users).1.length = users.length) :=
  ⟨pipelineGo_eq_filterMap file users ⟨0, [], 0⟩, pipelineOpt_length file users ⟨0, [], 0⟩⟩

/-- C5 witness: on a panic-free run with three input elements the
per-element sequence has length three. -/
theorem C5_pipeline_emits_filtered_witness :
    (pipelineOptRun exFileAA [userAA, userZZ1, userZZ2]).2 = none ∧
      (pipelineOptRun exFileAA [userAA, userZZ1, userZZ2]).1.length =
        [userAA, userZZ1, userZZ2].length :=
  ⟨rfl, (C5_pipeline_emits_filtered exFileAA [userAA, userZZ1, userZZ2]).2 rfl⟩

/-- C6 counterexample: a line lacking a colon separator is examined by the
search (it is the only line of the file) yet the search does not fail — it
returns `NotFound` normally, because the whole trimmed line is compared as
the key and only an equal comparison reaches the count parse. -/
theorem C6_colonless_line_not_fatal :
    (splitOnChar ':' (trim (readLineFrom exFileNoColon 0).1)).length = 1 ∧
      jump_search exFileNoColon 0 ("ZZ".toList) = .ok (none, 4) := ⟨rfl, rfl⟩

/-- C6 (amended): the search fails fatally with the `MalformedLine`
condition only if some line of the stream has key equal to the target and a
missing or unparseable count field; lines lacking a colon or a parseable
count whose key differs from the target never abort the search. -/
theorem C6_fatal_only_on_matching_key (file : List Char) (pos : ℕ) (hash : List Char)
    (h : jump_search file pos hash = .error .malformed) :
    ∃ q, keyAt file q = hash ∧ countAt file q = none := by
  simp only [jump_search] at h
  cases hjl : jumpLoop file hash (jumpStep file.length) (file.length + 2) pos <;>
    simp only [hjl] at h
  case found v q => simp at h
  case eof q => simp at h
  case malformed =>
    exact jumpLoop_malformed file hash (jumpStep file.length) (file.length + 2) pos hjl
  case fuelOut => simp at h
  case broke s =>
    by_cases hs : s < jumpStep file.length
    · rw [if_pos hs] at h
      simp at h
    · rw [if_neg hs] at h
      exact linearScan_malformed file hash s (file.length + 2) _ h

/-- C6 witness: on the file whose only line is `AA:x` the search for `AA`
fails fatally, and indeed a stream offset carries key `AA` with an
unparseable count. -/
theorem C6_fatal_only_on_matching_key_witness :
    jump_search exFileBad 0 ("AA".toList) = .error .malformed ∧
      ∃ q, keyAt exFileBad q = "AA".toList ∧ countAt exFileBad q = none :=
  ⟨rfl, C6_fatal_only_on_matching_key exFileBad 0 ("AA".toList) rfl⟩

/-- C7 counterexample: at total length n = 16785408 the computed step is not
`max 1 ⌊√n⌋`: the `f32` square root of 16785408 rounds up to 4097.0 (the
true root is ≈ 4096.99988, within half an ulp of 4097), while the floor
square root — certified by the flanking squares — is 4096. -/
theorem C7_step_not_floor_sqrt :
    jumpStep 16785408 ≠ max 1 (isqrt 16785408) ∧
      isqrt 16785408 * isqrt 16785408 ≤ 16785408 ∧
      16785408 < (isqrt 16785408 + 1) * (isqrt 16785408 + 1) :=
  ⟨by decide, by decide, by decide⟩

/-- C7 (amended): the step is computed from the total stream length alone as
`max(1, trunc(f32::sqrt(n as f32)))` — hence the same constant for every
call on the same file — and it is at least 1; it coincides with
`max(1, ⌊√n⌋)` on an initial range (verified here below 257) but can exceed
`⌊√n⌋` by one for larger lengths, e.g. step 4097 at n = 16785408. -/
theorem C7_step_from_total_length :
    (∀ n, n < 257 → jumpStep n = max 1 (isqrt n)) ∧ jumpStep 16785408 = 4097 ∧
      ∀ n, 1 ≤ jumpStep n :=
  ⟨by decide, by decide, fun _ => le_max_left 1 _⟩

/-- C7 witness: the floor-square-root formula instantiated at n = 100. -/
theorem C7_step_from_total_length_witness :
    100 < 257 ∧ jumpStep 100 = max 1 (isqrt 100) :=
  ⟨by decide, C7_step_from_total_length.1 100 (by decide)⟩

/-- C8: for every reference file (the empty file included), cursor at a line
boundary, and query hash strictly greater than the key of every line at or
after the cursor, the jump phase of `jump_search` reaches end of stream and
the search returns `NotFound` with no error. -/
theorem C8_gt_all_returns_notfound_at_eof (file hash : List Char) (pos : ℕ)
    (hbd : Bd file pos)
    (hlt : ∀ p, p < file.length → pos ≤ p → Bd file p → cmpStr (keyAt file p) hash = .lt) :
    ∃ q, jumpLoop file hash (jumpStep file.length) (file.length + 2) pos = .eof q ∧
      jump_search file pos hash = .ok (none, q) := by
  obtain ⟨q, hq⟩ := jumpLoop_all_lt_eof file hash (jumpStep file.length)
    (by unfold jumpStep; exact le_max_left _ _) pos hlt (file.length + 2) pos
    (by omega) (by omega) (le_refl pos) hbd
  exact ⟨q, hq, by simp only [jump_search, hq]⟩

/-- C8 witness: on the one-entry file `AA:1` the query `BB` exceeds every
key, and the search returns `NotFound` from the jump phase at end of
stream. -/
theorem C8_gt_all_returns_notfound_at_eof_witness :
    Bd exFileAA 0 ∧
      (∀ p, p < exFileAA.length → 0 ≤ p → Bd exFileAA p →
        cmpStr (keyAt exFileAA p) ("BB".toList) = .lt) ∧
      ∃ q, jumpLoop exFileAA ("BB".toList) (jumpStep exFileAA.length)
          (exFileAA.length + 2) 0 = .eof q ∧
        jump_search exFileAA 0 ("BB".toList) = .ok (none, q) :=
  ⟨by decide, by decide,
    C8_gt_all_returns_notfound_at_eof exFileAA ("BB".toList) 0 (by decide) (by decide)⟩

/-- C9: the binary-search baseline is not total — on the sorted well-formed
file `AAAAAAAA:1\nB:2\n` the target `0` drives every probe to the greater
branch until `mid = 0`, where `right = mid - 1` underflows the unsigned
offset (a panic in debug builds), modelled as `.error .underflow` instead of
a `None` return. -/
theorem C9_find_hash_underflow_reachable :
    ascKeys ((fileLines exFileLong).map lineKey) = true ∧
      find_hash exFileLong ("0".toList) = .error .underflow := ⟨rfl, rfl⟩

/-- C10: `find_hash` never compares the file's first line — every compared
line starts at a positive offset, because each probe discards the line
containing the midpoint byte, so even `mid = 0` consumes the whole first
line before comparing.  Consequently the hash stored on the first line of
`exFileTwo` is present (the independent search finds count 1) yet
`find_hash` returns `None`. -/
theorem C10_first_line_never_compared :
    (∀ file target : List Char, file ≠ [] → ∀ q ∈ findHashTrace file target, 0 < q) ∧
      specLookup exFileTwo ("A".toList) = some 1 ∧
      find_hash exFileTwo ("A".toList) = .ok none := by
  refine ⟨?_, rfl, rfl⟩
  intro file target hne q hq
  exact findHashLoopT_trace_pos file target hne _ _ _ q hq

/-- C10 witness: on `exFileTwo` every compared line starts past offset 0. -/
theorem C10_first_line_never_compared_witness :
    exFileTwo ≠ [] ∧ ∀ q ∈ findHashTrace exFileTwo ("A".toList), 0 < q :=
  ⟨by decide, C10_first_line_never_compared.1 exFileTwo ("A".toList) (by decide)⟩
